import Mathlib

/-!
Verification of the `fastecc` C++ wrapper layer (`Curve::FourQ::Scalar`,
`Curve::FourQ::Point`, SchnorrQ sign/verify helpers) against its
natural-language specification.

The wrapper source (`fourq.cpp` / `fourq.hpp` / `utils.hpp`) is embedded
shallowly below.  The FourQ curve backend (FourQlib) is an external
collaborator of the wrapper: its primitives are modelled from the
specification's interface contract (§6 of the spec), while every wrapper
function is translated directly from the C++ source.
-/

set_option maxRecDepth 1000000

namespace FourQ

/-- Decidable equality for `Except`, used to evaluate embedded fallible
operations on concrete inputs. -/
instance instDecEqExcept {ε α : Type} [DecidableEq ε] [DecidableEq α] :
    DecidableEq (Except ε α)
  | Except.ok a, Except.ok b =>
    if h : a = b then isTrue (by rw [h])
    else isFalse (fun hc => h (Except.ok.inj hc))
  | Except.ok _, Except.error _ => isFalse (fun hc => Except.noConfusion hc)
  | Except.error _, Except.ok _ => isFalse (fun hc => Except.noConfusion hc)
  | Except.error e, Except.error f =>
    if h : e = f then isTrue (by rw [h])
    else isFalse (fun hc => h (Except.error.inj hc))

/-- Binary modular exponentiation with explicit fuel so that the kernel can
evaluate it on 256-bit exponents.  Computes `a ^ e % m` whenever
`e < 2 ^ fuel` (see `powMod_correct`). -/
def powMod : Nat → Nat → Nat → Nat → Nat
  | 0, _, _, m => 1 % m
  | fuel + 1, a, e, m =>
    if e = 0 then 1 % m
    else
      let h := powMod fuel a (e / 2) m
      if e % 2 = 0 then h * h % m else h * h % m * (a % m) % m

/-- Modelled from the spec: the curve backend's group-order constant
`curve_order` (FourQlib `FourQ_params.h`, which is not under `src/`).  The
spec describes it as "a fixed 256-bit constant", the prime order `L` of the
curve's prime-order subgroup; this is the FourQ value, the little-endian
64-bit words `{0x2FB2540EC7768CE7, 0xDFBD004DFE0F7999, 0xF05397829CBC14E5,
0x0029CBC14E5E0A72}` read as one integer. -/
def L : ℕ :=
  0x0029CBC14E5E0A72F05397829CBC14E5DFBD004DFE0F79992FB2540EC7768CE7

instance : NeZero L := ⟨by norm_num [L]⟩

/-- The Montgomery radix used by the backend for `NWORDS_ORDER = 4` words of
64 bits: `R = 2 ^ 256`. -/
def R : ℕ := 2 ^ 256

/-- The modular inverse of the Montgomery radix `R` modulo `L`
(see `R_mul_Rinv_mod`). -/
def Rinv : ℕ :=
  0x27B2C704D8C6D10DD5B24AC38118775D78FA35B9B3D9C001C9FA340FC44477

/-- Modelled from the spec: the backend's `reduce_mod_order` primitive
(`modulo_order`), reduction of a scalar value modulo the group order. -/
def modulo_order (x : ℕ) : ℕ := x % L

/-- Modelled from the spec: the backend's addition modulo the group order. -/
def add_mod_order (x y : ℕ) : ℕ := (x + y) % L

/-- Modelled from the spec: the backend's subtraction modulo the group
order, `(x - y) mod L`. -/
def subtract_mod_order (x y : ℕ) : ℕ := (x % L + (L - y % L)) % L

/-- Modelled from the spec: the backend's `to_montgomery` conversion, taking
a scalar into the Montgomery domain (`x ↦ x·R mod L`). -/
def to_Montgomery (x : ℕ) : ℕ := x * R % L

/-- Modelled from the spec: the backend's `from_montgomery` conversion,
taking a Montgomery-domain value back to the normal domain
(`x ↦ x·R⁻¹ mod L`). -/
def from_Montgomery (x : ℕ) : ℕ := x * Rinv % L

/-- Modelled from the spec: the backend's Montgomery multiplication
(`x, y ↦ x·y·R⁻¹ mod L`). -/
def Montgomery_multiply_mod_order (x y : ℕ) : ℕ := x * y * Rinv % L

/-- Modelled from the spec: the backend's `montgomery_invert` primitive,
which computes the modular inverse of a Montgomery-domain value inside the
Montgomery domain, implemented (as in FourQlib) as a Fermat
exponentiation: for `y = b·R mod L` it returns `y^(L−2)·R² mod L
= b⁻¹·R mod L`.  On the zero value it returns `0`. -/
def Montgomery_inversion_mod_order (y : ℕ) : ℕ :=
  powMod 256 y (L - 2) L * (R % L) % L * (R % L) % L

/- ===== byte and hex utilities (src/utils.hpp, src/test_fourq.cpp) ===== -/

/-- A byte sequence; each entry models a C++ `uint8_t` value (every value
produced by the embedded operations is `< 256`). -/
abbrev Bytes := List ℕ

/-- From `bytes_to_hex_string` (src/utils.hpp): one lowercase hex digit, as
produced by `std::hex` formatting (`0`–`9`, `a`–`f`). -/
def hexDigitChar (n : ℕ) : Char :=
  if n < 10 then Char.ofNat (48 + n) else Char.ofNat (87 + n)

/-- `bytes_to_hex_string` (src/utils.hpp): each byte becomes two lowercase
hex characters (`std::setw(2)` with fill `'0'`), in byte order. -/
def bytes_to_hex_string : Bytes → List Char
  | [] => []
  | b :: bs =>
    hexDigitChar (b / 16) :: hexDigitChar (b % 16) :: bytes_to_hex_string bs

/-- The base-16 digit value accepted by `std::from_chars` (src/utils.hpp
uses `from_chars(first, last, byte, 16)`): decimal digits and the letters
`a`–`f` / `A`–`F` (the `strtol` subject-sequence rules are
case-insensitive).  Code points are used directly: `'0'` = 48, `'9'` = 57,
`'a'` = 97, `'f'` = 102, `'A'` = 65, `'F'` = 70. -/
def hexDigitVal? (c : Char) : Option ℕ :=
  if 48 ≤ c.toNat ∧ c.toNat ≤ 57 then some (c.toNat - 48)
  else if 97 ≤ c.toNat ∧ c.toNat ≤ 102 then some (c.toNat - 87)
  else if 65 ≤ c.toNat ∧ c.toNat ≤ 70 then some (c.toNat - 55)
  else none

/-- Whether a character is in the hex-digit set accepted by the parser. -/
def isHexDigit (c : Char) : Bool := (hexDigitVal? c).isSome

/-- `hex_string_to_bytes` (src/utils.hpp): rejects odd-length input, then
parses two characters per byte with `std::from_chars`; a bad first
character, a bad second character, or any later failure aborts with an
error (`none`). -/
def hex_string_to_bytes : List Char → Option Bytes
  | [] => some []
  | [_] => none
  | c1 :: c2 :: rest =>
    match hexDigitVal? c1 with
    | none => none
    | some h =>
      match hexDigitVal? c2 with
      | none => none
      | some l =>
        match hex_string_to_bytes rest with
        | none => none
        | some bs => some ((16 * h + l) :: bs)

/-- `reverse_bytes` (src/test_fourq.cpp, anonymous namespace): the C++
writes `out[i] = in[31 - i]` for a 32-byte buffer, which is list reversal
(every call site passes 32-byte buffers). -/
def reverse_bytes (bs : Bytes) : Bytes := bs.reverse

/-- Little-endian byte decomposition of a natural number into `k` bytes,
modelling `Scalar::toBytes` (word-array to byte-array, little-endian). -/
def natToBytesLE : ℕ → ℕ → Bytes
  | 0, _ => []
  | k + 1, n => n % 256 :: natToBytesLE k (n / 256)

/-- Little-endian byte composition, modelling `Scalar::toWords`
(byte-array to word-array, little-endian). -/
def bytesToNatLE : Bytes → ℕ
  | [] => 0
  | b :: bs => b + 256 * bytesToNatLE bs

/-- The little-endian numeric value denoted by a hex string (two characters
per byte, bytes in little-endian order).  Spec-side description of the
value `Scalar::fromString` stores, stated independently of the parser's
control flow. -/
def hexNatLE : List Char → ℕ
  | [] => 0
  | [_] => 0
  | c1 :: c2 :: rest =>
    16 * (hexDigitVal? c1).getD 0 + (hexDigitVal? c2).getD 0 +
      256 * hexNatLE rest

/- ===== Scalar (src/test_fourq.cpp wrapper part, src/unnamed/part_000) ===== -/

/-- `Curve::FourQ::Scalar`: wraps `fourq_scalar_t _b`, an array of 4
little-endian 64-bit words; modelled by the integer value of that array
(so every reachable value is `< 2 ^ 256`). -/
structure Scalar where
  val : ℕ
deriving DecidableEq

/-- Errors thrown by the scalar wrapper: the spec's FormatError
(`std::runtime_error` on bad length, `std::invalid_argument` on bad hex)
and ArithmeticError (`std::runtime_error` on division/inversion by
zero). -/
inductive ScalarError where
  | formatError
  | arithmeticError
deriving DecidableEq

/-- `Scalar::Scalar(uint32_t val)`: `_b.fill(0); _b[0] = val` (no
reduction; a `uint32_t` is below `2 ^ 32`). -/
def Scalar.ofUInt32 (v : ℕ) : Scalar := ⟨v % 2 ^ 32⟩

/-- `Scalar::Scalar(const EccDataType&)`: `modulo_order(toWords(val), _b)`. -/
def Scalar.ofBytes (b : Bytes) : Scalar := ⟨modulo_order (bytesToNatLE b)⟩

/-- `Scalar::getRaw`: `toBytes(_b)`, the 32 little-endian bytes. -/
def Scalar.getRaw (s : Scalar) : Bytes := natToBytesLE 32 s.val

/-- `Scalar::toString`: hex of `getRaw()` with no byte reversal. -/
def Scalar.toString (s : Scalar) : List Char := bytes_to_hex_string s.getRaw

/-- `Scalar::fromString`: length must be `2 * ECC_KEY_LENGTH = 64`
(else `std::runtime_error`), then `hex_string_to_bytes` (throws on bad
hex), then `modulo_order(toWords(btmp), _b)`. -/
def Scalar.fromString (ins : List Char) : Except ScalarError Scalar :=
  if ins.length ≠ 2 * 32 then Except.error ScalarError.formatError
  else
    match hex_string_to_bytes ins with
    | none => Except.error ScalarError.formatError
    | some btmp => Except.ok ⟨modulo_order (bytesToNatLE btmp)⟩

/-- `Scalar::isZero`: every underlying word is zero, i.e. the value is 0. -/
def Scalar.isZero (s : Scalar) : Bool := s.val == 0

/-- `operator+(Scalar, Scalar)`: `add_mod_order`. -/
def Scalar.add (a b : Scalar) : Scalar := ⟨add_mod_order a.val b.val⟩

/-- `operator-(Scalar, Scalar)`: `subtract_mod_order`. -/
def Scalar.sub (a b : Scalar) : Scalar := ⟨subtract_mod_order a.val b.val⟩

/-- `operator*(Scalar, Scalar)`: both operands into the Montgomery domain,
Montgomery multiplication, then back out. -/
def Scalar.mul (a b : Scalar) : Scalar :=
  ⟨from_Montgomery (Montgomery_multiply_mod_order (to_Montgomery a.val)
    (to_Montgomery b.val))⟩

/-- `operator/(Scalar, Scalar)`: throws on a zero divisor; otherwise both
operands into the Montgomery domain, the divisor inverted in Montgomery
form, Montgomery multiplication, then back out. -/
def Scalar.div (a b : Scalar) : Except ScalarError Scalar :=
  if b.isZero then Except.error ScalarError.arithmeticError
  else
    Except.ok ⟨from_Montgomery (Montgomery_multiply_mod_order
      (to_Montgomery a.val)
      (Montgomery_inversion_mod_order (to_Montgomery b.val)))⟩

/-- `Scalar::invert` (static): throws on zero input; otherwise the same
Montgomery round trip as division. -/
def Scalar.invert (b : Scalar) : Except ScalarError Scalar :=
  if b.isZero then Except.error ScalarError.arithmeticError
  else
    Except.ok ⟨from_Montgomery (Montgomery_inversion_mod_order
      (to_Montgomery b.val))⟩

/-- `Scalar::negate` (static): zero maps to zero; otherwise
`subtract_mod_order(curve_order, b)`. -/
def Scalar.negate (b : Scalar) : Scalar :=
  if b.isZero then ⟨0⟩ else ⟨subtract_mod_order L b.val⟩

/-- `Scalar::getZero` (static): the default-constructed zero scalar. -/
def Scalar.getZero : Scalar := ⟨0⟩

/- ===== Point (src/test_fourq.cpp wrapper part, src/unnamed/part_000) ===== -/

/-- Modelled from the spec: the backend's prime-order curve group.  The
spec treats the group abstractly (a group of prime order `L` with a fixed
generator, an injective 32-byte affine encoding, and scalar
multiplication); it is modelled as the additive group of `ZMod L`, written
through the ring structure, with generator `1`. -/
abbrev GroupEl := ZMod L

/-- Modelled from the spec: `eccset`, the backend's fixed generator. -/
def eccset : GroupEl := 1

/-- Modelled from the spec: `point_encode`, the backend's injective
32-byte affine encoding of a group element. -/
def encode (P : GroupEl) : Bytes := natToBytesLE 32 P.val

/-- Modelled from the spec: `point_decode`, the partial inverse of
`encode`; byte strings outside the encoding's image are rejected (in this
model, exactly those whose little-endian value is not below `L`). -/
def decode (bs : Bytes) : Option GroupEl :=
  if bytesToNatLE bs < L then some ((bytesToNatLE bs : ℕ) : GroupEl)
  else none

/-- Modelled from the spec: `ecc_point_validate`, on-curve/subgroup
validation; every element of the model carrier is a valid group element. -/
def ecc_point_validate (_P : GroupEl) : Bool := true

/-- Modelled from the spec: `eccadd` (together with the `R1_to_R2`
precomputation transform), the group law. -/
def eccadd (P Q : GroupEl) : GroupEl := P + Q

/-- Modelled from the spec: `ecc_mul`, variable-base scalar
multiplication `k·P` (the scalar given by its raw words). -/
def ecc_mul (P : GroupEl) (k : ℕ) : GroupEl := (k : GroupEl) * P

/-- Modelled from the spec: `ecc_mul_fixed`, fixed-base scalar
multiplication `k·G` by the precomputed-table algorithm. -/
def ecc_mul_fixed (k : ℕ) : GroupEl := (k : GroupEl) * eccset

/-- Modelled from the spec: `ecc_mul_double`, simultaneous double-scalar
multiplication `kG·G + kP·P` (Straus' method). -/
def ecc_mul_double (kG : ℕ) (P : GroupEl) (kP : ℕ) : GroupEl :=
  (kG : GroupEl) * eccset + (kP : GroupEl) * P

/-- `Curve::FourQ::Point`: wraps `point_extproj_t _pe`, the backend's
extended-coordinate representation; modelled by the group element it
denotes (`point_setup` / `eccnorm` translate between representations of
the same element and are the identity of the model). -/
structure Point where
  el : GroupEl
deriving DecidableEq

/-- Errors thrown by the point wrapper: the spec's FormatError
(`std::invalid_argument` on bad length or bad hex), and the two
ValidationError sites (`"Point decoding failed"` when `decode` rejects,
`"ecc_point_validate failed"` when validation rejects). -/
inductive PointError where
  | formatError
  | decodeFailed
  | validateFailed
deriving DecidableEq

/-- `Point::Point()`: the identity element, affine `(0, 1)`, set up into
the internal representation. -/
def Point.identity : Point := ⟨0⟩

/-- `Point::getZero` (static): the default-constructed identity point. -/
def Point.getZero : Point := Point.identity

/-- `Point::getBase` (static): `eccset` followed by `point_setup`. -/
def Point.getBase : Point := ⟨eccset⟩

/-- `Point::getRaw`: normalize a copy to affine form (`eccnorm`), then
`encode` to 32 bytes. -/
def Point.getRaw (P : Point) : Bytes := encode P.el

/-- `Point::isZero`: normalize a copy to affine form and compare the
coordinates with the canonical identity `(0, 1)`. -/
def Point.isZero (P : Point) : Bool := decide (P.el = 0)

/-- `Point::toString`: the bytes of `getRaw()`, byte-reversed, hex
encoded. -/
def Point.toString (P : Point) : List Char :=
  bytes_to_hex_string (reverse_bytes P.getRaw)

/-- `Point::Point(const EccDataType&)`: `decode` the bytes, throwing
`"Point decoding failed"` when `decode` rejects them; then `point_setup`
and `ecc_point_validate`, throwing when validation fails. -/
def Point.ofBytes (val : Bytes) : Except PointError Point :=
  match decode val with
  | none => Except.error PointError.decodeFailed
  | some pa =>
    if ecc_point_validate pa then Except.ok ⟨pa⟩
    else Except.error PointError.validateFailed

/-- `Point::fromString`: length must be 64 (else `std::invalid_argument`),
then `hex_string_to_bytes` (throws on bad hex), then `reverse_bytes`, then
`decode` — whose return status the C++ code DISCARDS (unlike the
raw-buffer constructor): on decode failure it continues with whatever the
output buffer `pa` holds, modelled here as the identity element — then
`point_setup` and `ecc_point_validate`, throwing only when validation
fails. -/
def Point.fromString (str : List Char) : Except PointError Point :=
  if str.length ≠ 2 * 32 then Except.error PointError.formatError
  else
    match hex_string_to_bytes str with
    | none => Except.error PointError.formatError
    | some btmp =>
      let brev := reverse_bytes btmp
      let pa := (decode brev).getD 0
      if ecc_point_validate pa then Except.ok ⟨pa⟩
      else Except.error PointError.validateFailed

/-- A spec-side companion of `Point.fromString` following the claim's
words instead of the code: after hex-decode and byte reversal it
"proceeds exactly as the raw-buffer path (decode + validate)". -/
def Point.fromStringSpec (str : List Char) : Except PointError Point :=
  if str.length ≠ 2 * 32 then Except.error PointError.formatError
  else
    match hex_string_to_bytes str with
    | none => Except.error PointError.formatError
    | some btmp => Point.ofBytes (reverse_bytes btmp)

/-- `operator+` / `operator+=`: copy, `R1_to_R2` precomputation of the
operand, `eccadd` into the receiver. -/
def Point.add (P Q : Point) : Point := ⟨eccadd P.el Q.el⟩

/-- `operator*(Scalar, Point)` / `operator*=`: normalize the receiver to
affine, `ecc_mul` with the scalar's raw words, rebuild the internal
representation. -/
def Point.mulScalar (b : Scalar) (P : Point) : Point := ⟨ecc_mul P.el b.val⟩

/-- `Point::mulBase` (static): `ecc_mul_fixed` with the scalar's raw
words, then `point_setup`. -/
def Point.mulBase (b : Scalar) : Point := ⟨ecc_mul_fixed b.val⟩

/-- `Point::MulAdd`: normalize a copy of the receiver to affine, then one
`ecc_mul_double` call computing `mG·G + mP·this`. -/
def Point.MulAdd (P : Point) (mG mP : Scalar) : Point :=
  ⟨ecc_mul_double mG.val P.el mP.val⟩

/-- `Point::getOrder` (static): `memcpy(r._b.data(), curve_order,
sizeof(curve_order))` — the order constant is copied into the scalar's
words with NO reduction, so the stored value is exactly `L`. -/
def Point.getOrder : Scalar := ⟨L⟩

/-- `Point::negate` (static): the identity maps to itself; otherwise
`(L - 1) · P` via `subtract_mod_order(curve_order, Scalar(1))` and scalar
multiplication. -/
def Point.negate (P : Point) : Point :=
  if P.isZero then Point.getZero
  else Point.mulScalar ⟨subtract_mod_order L (Scalar.ofUInt32 1).val⟩ P

/- ===== SchnorrQ wrapper (src/unnamed/part_000) ===== -/

/-- A 64-byte SchnorrQ signature, opaque to the wrapper layer. -/
abbrev Signature := Bytes

/-- `SchnorrQSign<T>` (src/unnamed/part_000): recompute the public key as
`mulBase(secretKey)`, reject an empty message (`return false`) BEFORE the
backend call, otherwise delegate to the backend `::SchnorrQ_Sign`
primitive.  The backend primitive (FourQlib, not under `src/`) is passed
as the parameter `backendSign` (`none` models a non-`ECCRYPTO_SUCCESS`
return). -/
def SchnorrQSign (backendSign : Bytes → Bytes → Bytes → Option Signature)
    (secretKey : Scalar) (msg : Bytes) : Option Signature :=
  let skraw := secretKey.getRaw
  let pkraw := (Point.mulBase secretKey).getRaw
  if msg.length = 0 then none
  else backendSign skraw pkraw msg

end FourQ

namespace FourQ

/- ===== general lemmas ===== -/

theorem powMod_correct (fuel a e m : ℕ) (he : e < 2 ^ fuel) :
    powMod fuel a e m = a ^ e % m := by
  induction fuel generalizing e with
  | zero =>
    have h0 : e = 0 := by simpa using he
    subst h0
    simp [powMod]
  | succ f ih =>
    rw [powMod]
    by_cases h0 : e = 0
    · subst h0; simp
    · have hlt : e / 2 < 2 ^ f := by
        have h2 : 2 ^ (f + 1) = 2 * 2 ^ f := by ring
        omega
      have hrec := ih (e / 2) hlt
      by_cases h2 : e % 2 = 0
      · have hee : e / 2 + e / 2 = e := by omega
        simp only [if_neg h0, if_pos h2]
        rw [hrec, ← Nat.mul_mod, ← pow_add, hee]
      · have hee : e / 2 + e / 2 + 1 = e := by omega
        simp only [if_neg h0, if_neg h2]
        rw [hrec]
        conv_rhs => rw [← hee, pow_succ, pow_add, Nat.mul_mod,
          Nat.mul_mod (a ^ (e / 2))]

/-- A Lucas primality certificate checked through `powMod`: `a` has order
`p - 1` modulo `p`, witnessed against the full prime factorisation of
`p - 1` (given as a list with multiplicity). -/
theorem lucas_from_list (p a fuel : ℕ) (hp : 1 < p) (hfuel : p - 1 < 2 ^ fuel)
    (l : List ℕ) (hl : ∀ q ∈ l, Nat.Prime q) (hprod : l.prod = p - 1)
    (ha : powMod fuel a (p - 1) p = 1)
    (hne : ∀ q ∈ l, powMod fuel a ((p - 1) / q) p ≠ 1) : p.Prime := by
  apply lucas_primality p (a : ZMod p)
  · have h1 : a ^ (p - 1) % p = 1 := by
      rw [← powMod_correct fuel a (p - 1) p hfuel]; exact ha
    calc ((a : ZMod p)) ^ (p - 1)
        = ((a ^ (p - 1) % p : ℕ) : ZMod p) := by
          rw [ZMod.natCast_mod, Nat.cast_pow]
      _ = 1 := by rw [h1, Nat.cast_one]
  · intro q hq hdvd
    obtain ⟨r, hr, hqr⟩ := (hq.prime.dvd_prod_iff).mp (by
      rw [hprod]; exact hdvd)
    have hrp := hl r hr
    have hqe : q = r := (Nat.prime_dvd_prime_iff_eq hq hrp).mp hqr
    subst hqe
    intro heq
    apply hne q hr
    rw [powMod_correct fuel a _ p (lt_of_le_of_lt (Nat.div_le_self _ _) hfuel)]
    have hc : ((a ^ ((p - 1) / q) % p : ℕ) : ZMod p) = ((1 : ℕ) : ZMod p) := by
      rw [ZMod.natCast_mod, Nat.cast_pow, Nat.cast_one, heq]
    have hlt1 : a ^ ((p - 1) / q) % p < p := Nat.mod_lt _ (by omega)
    have hv := congrArg ZMod.val hc
    rw [ZMod.val_cast_of_lt hlt1, ZMod.val_cast_of_lt hp] at hv
    exact hv

theorem prime_1556657 : Nat.Prime 1556657 :=
  lucas_from_list 1556657 3 256 (by norm_num) (by norm_num)
    [2, 2, 2, 2, 17, 59, 97]
    (by intro q hq; fin_cases hq <;> norm_num)
    (by norm_num) (by decide) (by decide)

theorem prime_1576049 : Nat.Prime 1576049 :=
  lucas_from_list 1576049 3 256 (by norm_num) (by norm_num)
    [2, 2, 2, 2, 137, 719]
    (by intro q hq; fin_cases hq <;> norm_num)
    (by norm_num) (by decide) (by decide)

theorem prime_5948609 : Nat.Prime 5948609 :=
  lucas_from_list 5948609 3 256 (by norm_num) (by norm_num)
    [2, 2, 2, 2, 2, 2, 41, 2267]
    (by intro q hq; fin_cases hq <;> norm_num)
    (by norm_num) (by decide) (by decide)

theorem prime_7355633 : Nat.Prime 7355633 :=
  lucas_from_list 7355633 3 256 (by norm_num) (by norm_num)
    [2, 2, 2, 2, 379, 1213]
    (by intro q hq; fin_cases hq <;> norm_num)
    (by norm_num) (by decide) (by decide)

theorem prime_349523429 : Nat.Prime 349523429 :=
  lucas_from_list 349523429 2 256 (by norm_num) (by norm_num)
    [2, 2, 29, 101, 29833]
    (by intro q hq; fin_cases hq <;> norm_num)
    (by norm_num) (by decide) (by decide)

theorem prime_9560163629 : Nat.Prime 9560163629 :=
  lucas_from_list 9560163629 2 256 (by norm_num) (by norm_num)
    [2, 2, 149, 3253, 4931]
    (by intro q hq; fin_cases hq <;> norm_num)
    (by norm_num) (by decide) (by decide)

theorem prime_366671478348367 : Nat.Prime 366671478348367 :=
  lucas_from_list 366671478348367 5 256 (by norm_num) (by norm_num)
    [2, 3, 31, 31, 157, 257, 1576049]
    (by intro q hq; fin_cases hq <;> first | exact prime_1576049 | norm_num)
    (by norm_num) (by decide) (by decide)

theorem prime_29633655537158324207 : Nat.Prime 29633655537158324207 :=
  lucas_from_list 29633655537158324207 5 256 (by norm_num) (by norm_num)
    [2, 17, 2377, 366671478348367]
    (by intro q hq; fin_cases hq <;>
      first | exact prime_366671478348367 | norm_num)
    (by norm_num) (by decide) (by decide)

theorem prime_p147 : Nat.Prime 95178976488652476489556669482413803056485341 :=
  lucas_from_list 95178976488652476489556669482413803056485341 6 256
    (by norm_num) (by norm_num)
    [2, 2, 3, 5, 263, 374093, 1556657, 349523429, 29633655537158324207]
    (by intro q hq; fin_cases hq <;>
      first
        | exact prime_1556657
        | exact prime_349523429
        | exact prime_29633655537158324207
        | norm_num)
    (by norm_num) (by decide) (by decide)

/-- The FourQ group order `L` is prime, by a Lucas certificate against the
full factorisation of `L - 1`. -/
theorem prime_L : Nat.Prime L := by
  have h : Nat.Prime
      73846995687063900142583536357581573884798075859800097461294096333596429543 :=
    lucas_from_list
      73846995687063900142583536357581573884798075859800097461294096333596429543
      6 256 (by norm_num) (by norm_num)
      [2, 3, 3, 103043, 5948609, 7355633, 9560163629,
        95178976488652476489556669482413803056485341]
      (by intro q hq; fin_cases hq <;>
        first
          | exact prime_5948609
          | exact prime_7355633
          | exact prime_9560163629
          | exact prime_p147
          | norm_num)
      (by norm_num) (by decide) (by decide)
  have hL :
      L = 73846995687063900142583536357581573884798075859800097461294096333596429543 := by
    norm_num [L]
  rw [hL]
  exact h

theorem L_pos : 0 < L := by norm_num [L]

/- ===== byte and hex lemmas ===== -/

theorem natToBytesLE_length (k n : ℕ) : (natToBytesLE k n).length = k := by
  induction k generalizing n with
  | zero => rfl
  | succ k ih => simp [natToBytesLE, ih]

theorem natToBytesLE_mem (k n : ℕ) : ∀ b ∈ natToBytesLE k n, b < 256 := by
  induction k generalizing n with
  | zero => simp [natToBytesLE]
  | succ k ih =>
    intro b hb
    rw [natToBytesLE] at hb
    rcases List.mem_cons.mp hb with h | h
    · omega
    · exact ih (n / 256) b h

theorem bytesToNatLE_natToBytesLE (k n : ℕ) (h : n < 256 ^ k) :
    bytesToNatLE (natToBytesLE k n) = n := by
  induction k generalizing n with
  | zero =>
    have h0 : n = 0 := by simpa using h
    subst h0
    rfl
  | succ k ih =>
    rw [natToBytesLE, bytesToNatLE, ih (n / 256) (by rw [pow_succ] at h; omega)]
    omega

theorem bytes_to_hex_string_length (bs : Bytes) :
    (bytes_to_hex_string bs).length = 2 * bs.length := by
  induction bs with
  | nil => rfl
  | cons b rest ih => simp [bytes_to_hex_string, ih]; omega

theorem hexDigitVal?_hexDigitChar : ∀ n, n < 16 →
    hexDigitVal? (hexDigitChar n) = some n := by decide

theorem hex_roundtrip (bs : Bytes) (h : ∀ b ∈ bs, b < 256) :
    hex_string_to_bytes (bytes_to_hex_string bs) = some bs := by
  induction bs with
  | nil => rfl
  | cons b rest ih =>
    have hb : b < 256 := h b (List.mem_cons_self b rest)
    have hrest : ∀ x ∈ rest, x < 256 := fun x hx => h x (List.mem_cons_of_mem b hx)
    rw [bytes_to_hex_string, hex_string_to_bytes,
      hexDigitVal?_hexDigitChar (b / 16) (by omega),
      hexDigitVal?_hexDigitChar (b % 16) (by omega), ih hrest]
    have hdm : 16 * (b / 16) + b % 16 = b := by omega
    simp [hdm]

theorem hex_some_of_all : ∀ s : List Char, s.length % 2 = 0 →
    (∀ c ∈ s, isHexDigit c = true) → ∃ bs, hex_string_to_bytes s = some bs
  | [], _, _ => ⟨[], rfl⟩
  | [c], hlen, _ => by simp at hlen
  | c1 :: c2 :: rest, hlen, hhex => by
    have h1 : isHexDigit c1 = true := hhex c1 (by simp)
    have h2 : isHexDigit c2 = true := hhex c2 (by simp)
    obtain ⟨v1, hv1⟩ := Option.isSome_iff_exists.mp h1
    obtain ⟨v2, hv2⟩ := Option.isSome_iff_exists.mp h2
    have hlen' : rest.length % 2 = 0 := by simp at hlen; omega
    have hhex' : ∀ c ∈ rest, isHexDigit c = true := fun c hc =>
      hhex c (List.mem_cons_of_mem c1 (List.mem_cons_of_mem c2 hc))
    obtain ⟨bs, hbs⟩ := hex_some_of_all rest hlen' hhex'
    exact ⟨(16 * v1 + v2) :: bs, by rw [hex_string_to_bytes, hv1, hv2, hbs]⟩

theorem hex_none_of_bad : ∀ s : List Char, ∀ c ∈ s, isHexDigit c = false →
    hex_string_to_bytes s = none
  | [], c, hc, _ => absurd hc (List.not_mem_nil c)
  | [_], _, _, _ => rfl
  | c1 :: c2 :: rest, c, hc, hbad => by
    have hnone : ∀ x : Char, isHexDigit x = false → hexDigitVal? x = none := by
      intro x hx
      unfold isHexDigit at hx
      exact Option.not_isSome_iff_eq_none.mp (by simp [hx])
    rcases List.mem_cons.mp hc with h | h
    · subst h
      rw [hex_string_to_bytes, hnone c hbad]
    · rcases List.mem_cons.mp h with h' | h'
      · subst h'
        rw [hex_string_to_bytes]
        cases hv1 : hexDigitVal? c1 with
        | none => rfl
        | some v1 => rw [hnone c hbad]
      · have hrest := hex_none_of_bad rest c h' hbad
        rw [hex_string_to_bytes]
        cases hv1 : hexDigitVal? c1 with
        | none => rfl
        | some v1 =>
          cases hv2 : hexDigitVal? c2 with
          | none => rfl
          | some v2 => rw [hrest]

theorem hex_val : ∀ s : List Char, ∀ bs : Bytes,
    hex_string_to_bytes s = some bs → bytesToNatLE bs = hexNatLE s
  | [], bs, h => by
    rw [hex_string_to_bytes] at h
    cases h
    rfl
  | [c], bs, h => by rw [hex_string_to_bytes] at h; cases h
  | c1 :: c2 :: rest, bs, h => by
    rw [hex_string_to_bytes] at h
    cases hv1 : hexDigitVal? c1 with
    | none => rw [hv1] at h; cases h
    | some v1 =>
      cases hv2 : hexDigitVal? c2 with
      | none => rw [hv1, hv2] at h; cases h
      | some v2 =>
        cases hrest : hex_string_to_bytes rest with
        | none => rw [hv1, hv2, hrest] at h; cases h
        | some bs' =>
          rw [hv1, hv2, hrest] at h
          cases h
          rw [bytesToNatLE, hexNatLE, hv1, hv2, hex_val rest bs' hrest]
          simp

/- ===== Montgomery-domain cast lemmas ===== -/

theorem R_mul_Rinv_mod : R * Rinv % L = 1 := by decide

theorem cast_to_Montgomery (x : ℕ) :
    ((to_Montgomery x : ℕ) : ZMod L) = (x : ZMod L) * ((R : ℕ) : ZMod L) := by
  rw [to_Montgomery, ZMod.natCast_mod, Nat.cast_mul]

theorem cast_from_Montgomery (x : ℕ) :
    ((from_Montgomery x : ℕ) : ZMod L) =
      (x : ZMod L) * ((Rinv : ℕ) : ZMod L) := by
  rw [from_Montgomery, ZMod.natCast_mod, Nat.cast_mul]

theorem cast_montMul (x y : ℕ) :
    ((Montgomery_multiply_mod_order x y : ℕ) : ZMod L) =
      (x : ZMod L) * (y : ZMod L) * ((Rinv : ℕ) : ZMod L) := by
  rw [Montgomery_multiply_mod_order, ZMod.natCast_mod, Nat.cast_mul,
    Nat.cast_mul]

theorem cast_minv (y : ℕ) :
    ((Montgomery_inversion_mod_order y : ℕ) : ZMod L) =
      (y : ZMod L) ^ (L - 2) * ((R : ℕ) : ZMod L) * ((R : ℕ) : ZMod L) := by
  rw [Montgomery_inversion_mod_order,
    powMod_correct 256 y (L - 2) L (by norm_num [L])]
  simp only [ZMod.natCast_mod, Nat.cast_mul, Nat.cast_pow]

theorem zmod_cast_ne_zero {x : ℕ} (hx : x ≠ 0) (hxL : x < L) :
    ((x : ℕ) : ZMod L) ≠ 0 := by
  intro h
  have hv := congrArg ZMod.val h
  rw [ZMod.val_cast_of_lt hxL, ZMod.val_zero] at hv
  exact hx hv

theorem Rz_ne_zero : ((R : ℕ) : ZMod L) ≠ 0 := by
  rw [← ZMod.natCast_mod]
  exact zmod_cast_ne_zero (by decide) (Nat.mod_lt _ L_pos)

theorem Rinvz_eq_inv : ((Rinv : ℕ) : ZMod L) = ((R : ℕ) : ZMod L)⁻¹ := by
  haveI : Fact (Nat.Prime L) := ⟨prime_L⟩
  have h1 : ((Rinv : ℕ) : ZMod L) * ((R : ℕ) : ZMod L) = 1 := by
    rw [mul_comm, ← Nat.cast_mul, ← ZMod.natCast_mod, R_mul_Rinv_mod,
      Nat.cast_one]
  exact eq_inv_of_mul_eq_one_left h1

theorem pow_L_sub_two_eq_inv {x : ZMod L} (hx : x ≠ 0) : x ^ (L - 2) = x⁻¹ := by
  haveI : Fact (Nat.Prime L) := ⟨prime_L⟩
  have h1 : x ^ (L - 1) = 1 := ZMod.pow_card_sub_one_eq_one hx
  have hL : L - 2 + 1 = L - 1 := by norm_num [L]
  have h2 : x ^ (L - 2) * x = 1 := by rw [← pow_succ, hL, h1]
  exact eq_inv_of_mul_eq_one_left h2

/- ===== claim theorems ===== -/

/-- C4: for every point `P` and all scalars `mG`, `mP` (zero scalars
included), `P.MulAdd(mG, mP)` computed through the backend's single
double-scalar-multiplication call has the same canonical raw encoding as
`mulBase(mG) + mP * P` computed by a fixed-base multiply, a variable-base
multiply and a point addition. -/
theorem mulAdd_eq_slow_path (P : Point) (mG mP : Scalar) :
    (Point.MulAdd P mG mP).getRaw =
      (Point.add (Point.mulBase mG) (Point.mulScalar mP P)).getRaw := rfl

/-- C5: for every scalar `a`, the fixed-base multiplication
`Point::mulBase(a)` yields a point with the same canonical raw encoding as
the variable-base product `a * Point::getBase()`. -/
theorem mulBase_eq_mul_getBase (b : Scalar) :
    (Point.mulBase b).getRaw = (Point.mulScalar b Point.getBase).getRaw := rfl

/-- C10: `Point::isZero()` returns true exactly when the point is the
group identity element (normalized affine `(0, 1)`, i.e. the wrapper's
canonical zero point); the default-constructed point and `getZero()`
satisfy it, `getBase()` does not. -/
theorem isZero_iff_identity :
    (∀ P : Point, P.isZero = true ↔ P = Point.getZero) ∧
    Point.identity.isZero = true ∧
    Point.getZero.isZero = true ∧
    Point.getBase.isZero = false := by
  refine ⟨fun P => ?_, by decide, by decide, by decide⟩
  rw [Point.isZero, decide_eq_true_iff]
  constructor
  · intro h
    cases P
    simp_all [Point.getZero, Point.identity]
  · intro h
    rw [h]
    rfl

/-- C9: for every secret key, `SchnorrQSign` with an empty message returns
the failure outcome, and the backend signing primitive is not called: the
result does not depend on the backend signing function at all. -/
theorem sign_empty_message_fails :
    ∀ (f g : Bytes → Bytes → Bytes → Option Signature) (sk : Scalar),
      SchnorrQSign f sk [] = none ∧
        SchnorrQSign f sk [] = SchnorrQSign g sk [] := by
  intro f g sk
  exact ⟨rfl, rfl⟩

/-- C8: scalar division and `Scalar::invert` fail with an ArithmeticError
exactly when the divisor (respectively the input) is the zero scalar, and
succeed for every nonzero divisor/input. -/
theorem div_invert_fail_iff_zero (a b : Scalar) :
    (Scalar.div a b = Except.error ScalarError.arithmeticError ↔
      b.isZero = true) ∧
    ((Scalar.div a b).isOk = true ↔ b.isZero = false) ∧
    (Scalar.invert b = Except.error ScalarError.arithmeticError ↔
      b.isZero = true) ∧
    ((Scalar.invert b).isOk = true ↔ b.isZero = false) := by
  cases hb : b.isZero <;>
    simp [Scalar.div, Scalar.invert, hb, Except.isOk, Except.toBool]

/-- C2, counterexample: the scalar returned by `Point::getOrder()` has
value exactly `L`, so it violates the claimed invariant `0 ≤ value < L`:
the order constant is copied into the scalar with no reduction. -/
theorem getOrder_violates_range :
    Point.getOrder.val = L ∧ ¬ Point.getOrder.val < L := by
  refine ⟨rfl, ?_⟩
  intro h
  exact Nat.lt_irrefl L h

/-- C2, amended: every scalar produced by the `uint32_t` constructor, the
32-byte-buffer constructor, `fromString`, and the arithmetic operations
(add, subtract, multiply, divide, invert, negate) satisfies
`0 ≤ value < L`; `Point::getOrder()` is the exception: its value is
exactly `L`. -/
theorem scalar_range_invariant_amended :
    (∀ v, (Scalar.ofUInt32 v).val < L) ∧
    (∀ b, (Scalar.ofBytes b).val < L) ∧
    (∀ s x, Scalar.fromString s = Except.ok x → x.val < L) ∧
    (∀ a b, (Scalar.add a b).val < L) ∧
    (∀ a b, (Scalar.sub a b).val < L) ∧
    (∀ a b, (Scalar.mul a b).val < L) ∧
    (∀ a b x, Scalar.div a b = Except.ok x → x.val < L) ∧
    (∀ b x, Scalar.invert b = Except.ok x → x.val < L) ∧
    (∀ b, (Scalar.negate b).val < L) ∧
    Point.getOrder.val = L := by
  refine ⟨?_, ?_, ?_, ?_, ?_, ?_, ?_, ?_, ?_, rfl⟩
  · intro v
    exact lt_trans (Nat.mod_lt _ (by norm_num)) (by norm_num [L])
  · intro b
    exact Nat.mod_lt _ L_pos
  · intro s x h
    rw [Scalar.fromString] at h
    by_cases hlen : s.length ≠ 2 * 32
    · rw [if_pos hlen] at h; cases h
    · rw [if_neg hlen] at h
      cases hbt : hex_string_to_bytes s with
      | none => rw [hbt] at h; cases h
      | some btmp =>
        rw [hbt] at h
        cases h
        exact Nat.mod_lt _ L_pos
  · intro a b
    exact Nat.mod_lt _ L_pos
  · intro a b
    exact Nat.mod_lt _ L_pos
  · intro a b
    exact Nat.mod_lt _ L_pos
  · intro a b x h
    rw [Scalar.div] at h
    by_cases hb : b.isZero = true
    · rw [if_pos hb] at h; cases h
    · rw [if_neg hb] at h
      cases h
      exact Nat.mod_lt _ L_pos
  · intro b x h
    rw [Scalar.invert] at h
    by_cases hb : b.isZero = true
    · rw [if_pos hb] at h; cases h
    · rw [if_neg hb] at h
      cases h
      exact Nat.mod_lt _ L_pos
  · intro b
    rw [Scalar.negate]
    by_cases hb : b.isZero = true
    · rw [if_pos hb]
      exact L_pos
    · rw [if_neg hb]
      exact Nat.mod_lt _ L_pos

/-- C2, witness for the amended claim: concrete applications of the
hypothesised conjuncts — `fromString` on the all-zero string and a
concrete division, both landing below `L`. -/
theorem scalar_range_invariant_amended_witness :
    Scalar.fromString (List.replicate 64 '0') = Except.ok ⟨0⟩ ∧
    ((⟨0⟩ : Scalar)).val < L ∧
    Scalar.div ⟨6⟩ ⟨3⟩ = Except.ok ⟨2⟩ ∧
    ((⟨2⟩ : Scalar)).val < L :=
  ⟨by decide,
   scalar_range_invariant_amended.2.2.1 (List.replicate 64 '0') ⟨0⟩ (by decide),
   by decide,
   scalar_range_invariant_amended.2.2.2.2.2.2.1 ⟨6⟩ ⟨3⟩ ⟨2⟩ (by decide)⟩

/-- C3: on the 64-hex-character input `"ff…f"` (reversed bytes all `0xff`,
rejected by the modelled backend decode), the raw-buffer construction path
fails with the ValidationError `"Point decoding failed"`, while
`Point::fromString` — which discards `decode`'s return status — does NOT:
it proceeds to validation on the stale output buffer and here succeeds;
the spec-side path that "proceeds exactly as the raw-buffer path"
(`Point.fromStringSpec`) does fail.  So `fromString` does not proceed
exactly as the raw-buffer path. -/
theorem fromString_ignores_decode_status :
    Point.ofBytes (List.replicate 32 255) =
      Except.error PointError.decodeFailed ∧
    Point.fromString (List.replicate 64 'f') = Except.ok Point.identity ∧
    Point.fromStringSpec (List.replicate 64 'f') =
      Except.error PointError.decodeFailed := by
  refine ⟨by decide, by decide, by decide⟩

/-- C6: `Scalar::fromString` fails with a FormatError exactly when the
input length is not 64 or some character is not a hex digit; on every
well-formed 64-hex-character input it succeeds and stores the decoded
little-endian value reduced modulo `L` (values at or above `L` wrap
silently, they are never rejected). -/
theorem scalar_fromString_exact (s : List Char) :
    (Scalar.fromString s = Except.error ScalarError.formatError ↔
      ¬ (s.length = 64 ∧ ∀ c ∈ s, isHexDigit c = true)) ∧
    ((s.length = 64 ∧ ∀ c ∈ s, isHexDigit c = true) →
      Scalar.fromString s = Except.ok ⟨hexNatLE s % L⟩) := by
  by_cases hlen : s.length = 64
  · by_cases hhex : ∀ c ∈ s, isHexDigit c = true
    · obtain ⟨bs, hbs⟩ := hex_some_of_all s (by omega) hhex
      have hok : Scalar.fromString s = Except.ok ⟨hexNatLE s % L⟩ := by
        rw [Scalar.fromString, if_neg (by omega), hbs,
          ← hex_val s bs hbs]
        rfl
      refine ⟨?_, fun _ => hok⟩
      rw [hok]
      exact iff_of_false (by simp) (not_not_intro ⟨hlen, hhex⟩)
    · have hbad : ∃ c ∈ s, isHexDigit c = false := by
        by_contra hcon
        push_neg at hcon
        exact hhex fun c hc => by
          have := hcon c hc
          revert this
          cases isHexDigit c <;> simp
      obtain ⟨c, hc, hcf⟩ := hbad
      have hnone := hex_none_of_bad s c hc hcf
      have herr : Scalar.fromString s =
          Except.error ScalarError.formatError := by
        rw [Scalar.fromString, if_neg (by omega), hnone]
      refine ⟨?_, fun habs => absurd habs.2 hhex⟩
      rw [herr]
      simp [hhex]
  · have herr : Scalar.fromString s = Except.error ScalarError.formatError := by
      rw [Scalar.fromString, if_pos (by omega)]
    refine ⟨?_, fun habs => absurd habs.1 hlen⟩
    rw [herr]
    simp [hlen]

/-- C6, witness: the spec's concrete scenario A — the 64-character string
`"01"` followed by 62 zeros is well formed, parses successfully, and the
stored value is `1`. -/
theorem scalar_fromString_exact_witness :
    (('0' :: '1' :: List.replicate 62 '0').length = 64 ∧
      ∀ c ∈ ('0' :: '1' :: List.replicate 62 '0'), isHexDigit c = true) ∧
    Scalar.fromString ('0' :: '1' :: List.replicate 62 '0') =
      Except.ok ⟨hexNatLE ('0' :: '1' :: List.replicate 62 '0') % L⟩ ∧
    hexNatLE ('0' :: '1' :: List.replicate 62 '0') % L = 1 :=
  ⟨⟨by decide, by decide⟩,
   (scalar_fromString_exact ('0' :: '1' :: List.replicate 62 '0')).2
     ⟨by decide, by decide⟩,
   by decide⟩

/-- C1: for every valid point `P`, serializing with `Point::toString` and
parsing back with `Point::fromString` succeeds and yields a point whose
canonical raw encoding equals `P`'s — the byte reversal in `toString` is
exactly inverted by the reversal in `fromString` before backend decode. -/
theorem point_toString_fromString_roundtrip (P : Point) :
    (Point.fromString (Point.toString P)).map Point.getRaw =
      Except.ok (Point.getRaw P) := by
  have hlenraw : (Point.getRaw P).length = 32 := natToBytesLE_length 32 _
  have hmem : ∀ b ∈ reverse_bytes (Point.getRaw P), b < 256 := by
    intro b hb
    rw [reverse_bytes, List.mem_reverse] at hb
    exact natToBytesLE_mem 32 _ b hb
  have hrt := hex_roundtrip (reverse_bytes (Point.getRaw P)) hmem
  have hlen : (Point.toString P).length = 64 := by
    rw [Point.toString, bytes_to_hex_string_length, reverse_bytes,
      List.length_reverse, hlenraw]
  have hvlt : P.el.val < L := ZMod.val_lt P.el
  have hdec : decode (Point.getRaw P) = some P.el := by
    rw [Point.getRaw, encode, decode,
      bytesToNatLE_natToBytesLE 32 P.el.val
        (lt_trans hvlt (by norm_num [L]))]
    rw [if_pos hvlt, ZMod.natCast_rightInverse P.el]
  rw [Point.fromString, if_neg (by omega)]
  rw [Point.toString, hrt]
  have hrev : reverse_bytes (reverse_bytes (Point.getRaw P)) =
      Point.getRaw P := by
    rw [reverse_bytes, reverse_bytes, List.reverse_reverse]
  simp only [hrev, hdec, Option.getD_some, ecc_point_validate, if_true,
    Except.map]

/-- C7: for all scalars `a`, `b` (canonical field elements, i.e. in range)
with `b` nonzero, `(a * b) / b == a`, where multiplication and division
are the wrapper operations round-tripping through the backend's Montgomery
domain (division inverting the divisor in Montgomery form). -/
theorem mul_div_cancel_scalar (a b : Scalar) (ha : a.val < L) (hb : b.val < L)
    (hbz : b.isZero = false) :
    Scalar.div (Scalar.mul a b) b = Except.ok a := by
  haveI : Fact (Nat.Prime L) := ⟨prime_L⟩
  have hbne : b.val ≠ 0 := by
    intro h
    rw [Scalar.isZero, h] at hbz
    simp at hbz
  rw [Scalar.div, if_neg (by simp [hbz])]
  obtain ⟨av⟩ := a
  have hBne : ((b.val : ℕ) : ZMod L) ≠ 0 := zmod_cast_ne_zero hbne hb
  have hX : from_Montgomery (Montgomery_multiply_mod_order
      (to_Montgomery (Scalar.mul ⟨av⟩ b).val)
      (Montgomery_inversion_mod_order (to_Montgomery b.val))) = av := by
    have hcast : ((from_Montgomery (Montgomery_multiply_mod_order
        (to_Montgomery (Scalar.mul ⟨av⟩ b).val)
        (Montgomery_inversion_mod_order (to_Montgomery b.val))) : ℕ) :
          ZMod L) = ((av : ℕ) : ZMod L) := by
      simp only [Scalar.mul, cast_from_Montgomery, cast_montMul,
        cast_to_Montgomery, cast_minv, Rinvz_eq_inv]
      rw [pow_L_sub_two_eq_inv (mul_ne_zero hBne Rz_ne_zero), mul_inv_rev]
      have hRR : ((R : ℕ) : ZMod L) * ((R : ℕ) : ZMod L)⁻¹ = 1 :=
        mul_inv_cancel₀ Rz_ne_zero
      have hBB : ((b.val : ℕ) : ZMod L) * ((b.val : ℕ) : ZMod L)⁻¹ = 1 :=
        mul_inv_cancel₀ hBne
      trans (((av : ℕ) : ZMod L) *
        (((b.val : ℕ) : ZMod L) * ((b.val : ℕ) : ZMod L)⁻¹) *
        ((((R : ℕ) : ZMod L) * ((R : ℕ) : ZMod L)⁻¹) ^ 5))
      · ring
      · rw [hRR, hBB, one_pow, mul_one, mul_one]
    have hXL : from_Montgomery (Montgomery_multiply_mod_order
        (to_Montgomery (Scalar.mul ⟨av⟩ b).val)
        (Montgomery_inversion_mod_order (to_Montgomery b.val))) < L :=
      Nat.mod_lt _ L_pos
    have hv := congrArg ZMod.val hcast
    rw [ZMod.val_cast_of_lt hXL, ZMod.val_cast_of_lt ha] at hv
    exact hv
  rw [hX]

/-- C7, witness: `(5 * 3) / 3 = 5` through the embedded Montgomery round
trip, the hypotheses discharged at the concrete scalars. -/
theorem mul_div_cancel_scalar_witness :
    ((⟨5⟩ : Scalar)).val < L ∧ ((⟨3⟩ : Scalar)).val < L ∧
    (⟨3⟩ : Scalar).isZero = false ∧
    Scalar.div (Scalar.mul ⟨5⟩ ⟨3⟩) ⟨3⟩ = Except.ok ⟨5⟩ :=
  ⟨by decide, by decide, by decide,
   mul_div_cancel_scalar ⟨5⟩ ⟨3⟩ (by decide) (by decide) (by decide)⟩

end FourQ
